import Mathlib

/-!
Verification of the dns-tunnel repository (two-tier DNS forwarder).

This file shallowly embeds the parts of the Go source that the checked
claims are about:

* `local/internal/crypto/crypto.go` — the AES-256-GCM envelope codec
  (`Cipher.Encrypt` / `Cipher.Decrypt`), with the Go standard library's
  `base64.StdEncoding` modelled bit-exactly and the AEAD core modelled as
  CTR keystream XOR plus an abstract 16-byte tag (the faithful shape of
  `gcm.Seal` / `gcm.Open` for a 12-byte nonce).
* `local/internal/cache/cache.go` — the local DNS message cache:
  `Key`, `Get` (expiry deletion, TTL decrement on a copy), `Set`
  (nil/empty-question guard, TTL derivation, capacity eviction),
  `evictOldest`, `Len`.
* `internal/client/client.go` — endpoint selection (`selectRoundRobin`,
  `selectFailover`) and the health-probe URL derivation plus healthy-flag
  update of `checkEndpoint`.
* `remote/internal/resolver/cache.go` — the remote result cache's `Get`
  and `Set`.
* `remote/internal/resolver/resolver.go` — the remote cache key and the
  MX record emission of `resolveWithUpstream`.
* `local/internal/server/server.go` — the MX branch of `Server.createRR`.

Go strings are modelled as `List Char` (`GoStr`), Go byte slices as
`List Nat` with every element `< 256`, times as nanosecond counts, and
Go maps as association lists whose insertion replaces the old binding.
-/

/-- A Go string, modelled as its list of characters. -/
abbrev GoStr := List Char

/-- A Go byte slice, modelled as a list of naturals (each `< 256`). -/
abbrev Bytes := List Nat

/-! ### Base64 (Go `encoding/base64` StdEncoding)

`base64.StdEncoding.EncodeToString` emits 4 alphabet characters per 3
input bytes, padding the final group with `=`.  `DecodeString` accepts
only alphabet characters in non-pad positions, requires the input length
to be a multiple of 4, and allows `=` padding only at the very end. -/

/-- The standard base64 alphabet, as used by Go's `base64.StdEncoding`. -/
def b64Alphabet : List Char :=
  ("ABCDEFGHIJKLMNOPQRSTUVWXYZabcdefghijklmnopqrstuvwxyz0123456789+/").toList

/-- The alphabet character for a sixtet value. -/
def b64Char (n : Nat) : Char := b64Alphabet.getD n 'A'

/-- The sixtet value of an alphabet character (`none` for non-alphabet
characters, in particular for `=`). -/
def b64Index (c : Char) : Option Nat := b64Alphabet.indexOf? c

/-- Base64 encoding of a byte list, three bytes per step, with `=`
padding on the final partial group (Go `StdEncoding.EncodeToString`). -/
def b64Encode : Bytes → GoStr
  | [] => []
  | [a] => [b64Char (a / 4), b64Char (a % 4 * 16), '=', '=']
  | [a, b] => [b64Char (a / 4), b64Char (a % 4 * 16 + b / 16), b64Char (b % 16 * 4), '=']
  | a :: b :: c :: rest =>
      b64Char (a / 4) :: b64Char (a % 4 * 16 + b / 16) ::
      b64Char (b % 16 * 4 + c / 64) :: b64Char (c % 64) :: b64Encode rest

/-- Base64 decoding (Go `StdEncoding.DecodeString`): processes 4
characters per step, accepts `=` padding only in the last group, fails
(`none`) on stray characters or on input whose length is not a multiple
of 4.  Go's non-strict decoder does not check the unused trailing bits. -/
def b64Decode : GoStr → Option Bytes
  | [] => some []
  | c1 :: c2 :: c3 :: c4 :: rest =>
      match b64Index c1, b64Index c2 with
      | some s1, some s2 =>
          if c3 = '=' then
            if c4 = '=' ∧ rest = [] then some [s1 * 4 + s2 / 16] else none
          else
            match b64Index c3 with
            | some s3 =>
                if c4 = '=' then
                  if rest = [] then some [s1 * 4 + s2 / 16, s2 % 16 * 16 + s3 / 4] else none
                else
                  match b64Index c4, b64Decode rest with
                  | some s4, some tl =>
                      some ((s1 * 4 + s2 / 16) :: (s2 % 16 * 16 + s3 / 4) ::
                            (s3 % 4 * 64 + s4) :: tl)
                  | _, _ => none
            | none => none
      | _, _ => none
  | _ => none

theorem b64Index_b64Char {n : Nat} (h : n < 64) : b64Index (b64Char n) = some n := by
  interval_cases n <;> rfl

theorem b64Char_ne_eq {n : Nat} (h : n < 64) : b64Char n ≠ '=' := by
  interval_cases n <;> decide

/-- Round trip of the modelled Go base64 codec on valid byte lists. -/
theorem b64Decode_b64Encode (l : Bytes) (hl : ∀ b ∈ l, b < 256) :
    b64Decode (b64Encode l) = some l := by
  induction l using b64Encode.induct with
  | case1 => rfl
  | case2 a =>
      have ha : a < 256 := hl a (by simp)
      have h1 : a / 4 < 64 := by omega
      have h2 : a % 4 * 16 < 64 := by omega
      simp only [b64Encode, b64Decode, b64Index_b64Char h1, b64Index_b64Char h2,
        if_true, and_self, Option.some.injEq, List.cons.injEq, and_true, if_pos rfl]
      omega
  | case3 a b =>
      have ha : a < 256 := hl a (by simp)
      have hb : b < 256 := hl b (by simp)
      have h1 : a / 4 < 64 := by omega
      have h2 : a % 4 * 16 + b / 16 < 64 := by omega
      have h3 : b % 16 * 4 < 64 := by omega
      simp only [b64Encode, b64Decode, b64Index_b64Char h1, b64Index_b64Char h2,
        b64Index_b64Char h3, b64Char_ne_eq h3, if_true, if_false, if_pos rfl,
        Option.some.injEq, List.cons.injEq, and_true]
      refine ⟨by omega, by omega⟩
  | case4 a b c rest ih =>
      have ha : a < 256 := hl a (by simp)
      have hb : b < 256 := hl b (by simp)
      have hc : c < 256 := hl c (by simp)
      have hrest : ∀ x ∈ rest, x < 256 := fun x hx => hl x (by simp [hx])
      have h1 : a / 4 < 64 := by omega
      have h2 : a % 4 * 16 + b / 16 < 64 := by omega
      have h3 : b % 16 * 4 + c / 64 < 64 := by omega
      have h4 : c % 64 < 64 := by omega
      simp only [b64Encode, b64Decode, b64Index_b64Char h1, b64Index_b64Char h2,
        b64Index_b64Char h3, b64Index_b64Char h4, b64Char_ne_eq h3, b64Char_ne_eq h4,
        ih hrest, if_true, if_false, Option.some.injEq, List.cons.injEq, and_true]
      refine ⟨by omega, by omega, by omega⟩

/-! ### Envelope codec (`local/internal/crypto/crypto.go`)

`Cipher` wraps `cipher.NewGCM(aes.NewCipher(key))`: AES-256-GCM with a
12-byte nonce and a 16-byte tag.  The AES-GCM core lives in the Go
standard library, outside this repository; it is modelled here in its
standard shape: `Seal` encrypts with a CTR keystream derived from the
key and nonce and appends a 16-byte tag computed from nonce and
ciphertext, and `Open` recomputes the tag over the received ciphertext,
compares, and decrypts with the same keystream.  The keystream and tag
functions are abstract parameters; keystream bytes are reduced mod 256
and the tag carries its 16-byte well-formedness as fields. -/

/-- Abstract model of the AES-GCM AEAD obtained from one 32-byte key:
a CTR keystream (nonce and byte position to keystream byte) and a tag
function (nonce and ciphertext to 16 authenticated-tag bytes). -/
structure GCM where
  keystream : Bytes → Nat → Nat
  tagOf : Bytes → Bytes → Bytes
  tagOf_length : ∀ nonce ct, (tagOf nonce ct).length = 16
  tagOf_lt : ∀ nonce ct, ∀ b ∈ tagOf nonce ct, b < 256

/-- CTR-mode XOR of a message with the keystream for `nonce`; used both
to encrypt and to decrypt (GCM's CTR core is an involution). -/
def GCM.ctr (g : GCM) (nonce : Bytes) (m : Bytes) : Bytes :=
  m.mapIdx fun i b => b ^^^ g.keystream nonce i % 256

/-- `gcm.Seal(nil, nonce, plaintext, nil)`: ciphertext followed by the
16-byte tag. -/
def GCM.seal (g : GCM) (nonce : Bytes) (plaintext : Bytes) : Bytes :=
  g.ctr nonce plaintext ++ g.tagOf nonce (g.ctr nonce plaintext)

/-- `gcm.Open(nil, nonce, ciphertext, nil)`: reject inputs shorter than
the tag, split off the trailing 16-byte tag, verify it, and decrypt. -/
def GCM.open' (g : GCM) (nonce : Bytes) (data : Bytes) : Option Bytes :=
  if data.length < 16 then none
  else
    let ct := data.take (data.length - 16)
    let tag := data.drop (data.length - 16)
    if tag = g.tagOf nonce ct then some (g.ctr nonce ct) else none

/-- `Cipher.Encrypt`: seal with a fresh 12-byte nonce (passed here as an
argument, since the Go code draws it from `crypto/rand`), prepend the
nonce (Go passes `nonce` as `Seal`'s `dst`), and base64-encode. -/
def Cipher.Encrypt (g : GCM) (nonce : Bytes) (plaintext : Bytes) : GoStr :=
  b64Encode (nonce ++ g.seal nonce plaintext)

/-- `Cipher.Decrypt`: base64-decode, reject inputs shorter than the
12-byte nonce, split the nonce off the front, and `Open` the rest. -/
def Cipher.Decrypt (g : GCM) (encoded : GoStr) : Option Bytes :=
  match b64Decode encoded with
  | none => none
  | some ciphertext =>
      if ciphertext.length < 12 then none
      else g.open' (ciphertext.take 12) (ciphertext.drop 12)

theorem GCM.ctr_length (g : GCM) (nonce m : Bytes) : (g.ctr nonce m).length = m.length := by
  simp [GCM.ctr]

theorem GCM.ctr_lt (g : GCM) (nonce m : Bytes) (hm : ∀ b ∈ m, b < 256) :
    ∀ b ∈ g.ctr nonce m, b < 256 := by
  intro b hb
  simp only [GCM.ctr, List.mem_mapIdx] at hb
  obtain ⟨i, hi, rfl⟩ := hb
  exact Nat.xor_lt_two_pow (n := 8) (hm _ (m.getElem_mem hi)) (Nat.mod_lt _ (by norm_num))

theorem GCM.ctr_ctr (g : GCM) (nonce m : Bytes) : g.ctr nonce (g.ctr nonce m) = m := by
  simp only [GCM.ctr, List.mapIdx_mapIdx]
  induction m using List.reverseRecOn <;> simp_all [Nat.xor_cancel_right]

/-- C1.  For every byte string `m` and every cipher built from a valid
key, decrypting the envelope produced by encrypting `m` returns exactly
`m`: the envelope is base64(nonce[12] ++ ciphertext ++ tag[16]), and
`Cipher.Decrypt (Cipher.Encrypt m) = some m`. -/
theorem C1_envelope_round_trip (g : GCM) (nonce m : Bytes)
    (hn12 : nonce.length = 12) (hn : ∀ b ∈ nonce, b < 256) (hm : ∀ b ∈ m, b < 256) :
    Cipher.Decrypt g (Cipher.Encrypt g nonce m) = some m := by
  have hfull : ∀ b ∈ nonce ++ g.seal nonce m, b < 256 := by
    intro b hb
    rcases List.mem_append.mp hb with h | h
    · exact hn b h
    · rcases List.mem_append.mp h with h' | h'
      · exact g.ctr_lt nonce m hm b h'
      · exact g.tagOf_lt _ _ b h'
  have hsl : (g.seal nonce m).length = m.length + 16 := by
    simp [GCM.seal, g.ctr_length, g.tagOf_length]
  simp only [Cipher.Encrypt, Cipher.Decrypt, b64Decode_b64Encode _ hfull]
  have hlen : (nonce ++ g.seal nonce m).length = 12 + (m.length + 16) := by
    simp [hn12, hsl]
  rw [if_neg (by omega)]
  have htake : (nonce ++ g.seal nonce m).take 12 = nonce := by
    rw [← hn12]; exact List.take_left nonce _
  have hdrop : (nonce ++ g.seal nonce m).drop 12 = g.seal nonce m := by
    rw [← hn12]; exact List.drop_left nonce _
  rw [htake, hdrop, GCM.open']
  rw [if_neg (by omega)]
  have hct : (g.seal nonce m).take ((g.seal nonce m).length - 16) = g.ctr nonce m := by
    rw [hsl, GCM.seal]
    have : m.length + 16 - 16 = (g.ctr nonce m).length := by rw [g.ctr_length]; omega
    rw [this]
    exact List.take_left _ _
  have htag : (g.seal nonce m).drop ((g.seal nonce m).length - 16) =
      g.tagOf nonce (g.ctr nonce m) := by
    rw [hsl, GCM.seal]
    have : m.length + 16 - 16 = (g.ctr nonce m).length := by rw [g.ctr_length]; omega
    rw [this]
    exact List.drop_left _ _
  simp [hct, htag, g.ctr_ctr]

/-- A concrete AEAD instance (all-zero keystream and tag) for witnesses. -/
def gcmZero : GCM where
  keystream := fun _ _ => 0
  tagOf := fun _ _ => List.replicate 16 0
  tagOf_length := fun _ _ => by simp
  tagOf_lt := fun _ _ b hb => by
    rw [List.eq_of_mem_replicate hb]; norm_num

/-- Witness for C1 at a concrete nonce and message. -/
theorem C1_envelope_round_trip_witness :
    Cipher.Decrypt gcmZero (Cipher.Encrypt gcmZero (List.replicate 12 0) [104, 105]) =
      some [104, 105] :=
  C1_envelope_round_trip gcmZero (List.replicate 12 0) [104, 105] (by decide)
    (by decide) (by decide)

/-! ### DNS messages and the local cache (`local/internal/cache/cache.go`)

`dns.Msg` is modelled by its question and answer sections; an answer
record keeps its owner name, type, TTL and opaque rdata.  Times are
nanosecond counts (`time.Time` / `time.Duration` are nanoseconds in Go);
`time.Now().After(t)` is strict `t < now`.  The Go map is an
association list with unique keys; insertion replaces the old binding. -/

/-- `dns.Question`: owner name and numeric query type. -/
structure Question where
  name : GoStr
  qtype : Nat
deriving DecidableEq

/-- One answer resource record: the header fields the cache touches
(`Ttl`) plus the opaque remainder. -/
structure DnsRR where
  name : GoStr
  rrtype : Nat
  ttl : Nat
  rdata : GoStr
deriving DecidableEq

/-- `dns.Msg`: question and answer sections. -/
structure Msg where
  question : List Question
  answer : List DnsRR
deriving DecidableEq

/-- `dns.TypeToString` restricted to the types this system serves; a
missing key yields the empty string, as a Go map lookup does. -/
def typeToString (t : Nat) : GoStr :=
  if t = 1 then ("A").toList
  else if t = 2 then ("NS").toList
  else if t = 5 then ("CNAME").toList
  else if t = 15 then ("MX").toList
  else if t = 16 then ("TXT").toList
  else if t = 28 then ("AAAA").toList
  else []

/-- `cache.Key(q)`: `q.Name + ":" + dns.TypeToString[q.Qtype]` — the
owner name is used exactly as it appears in the question. -/
def Key (q : Question) : GoStr := q.name ++ ':' :: typeToString q.qtype

/-- Nanoseconds per second (`time.Second`). -/
def nsPerSec : Nat := 1000000000

/-- `cache.Entry`. -/
structure Entry where
  msg : Msg
  expiresAt : Nat
  createdAt : Nat
deriving DecidableEq

/-- `cache.Cache` (the mutable map plus configuration). -/
structure Cache where
  items : List (GoStr × Entry)
  maxItems : Nat
  defaultTTL : Nat
  minTTL : Nat
  maxTTL : Nat
deriving DecidableEq

/-- The TTL decrement `Get` applies to each answer of the copied
message: subtract the elapsed seconds, clamping at 1. -/
def adjustRR (elapsed : Nat) (rr : DnsRR) : DnsRR :=
  if elapsed < rr.ttl then { rr with ttl := rr.ttl - elapsed } else { rr with ttl := 1 }

/-- `Cache.Get`: on a present, expired entry delete it and miss; on a
fresh entry return a copy whose answer TTLs are decremented by
`uint32(time.Since(created).Seconds())`; the store itself is untouched
on a hit. -/
def Cache.Get (c : Cache) (key : GoStr) (now : Nat) : Option Msg × Cache :=
  match c.items.lookup key with
  | none => (none, c)
  | some e =>
      if e.expiresAt < now then
        (none, { c with items := c.items.filter (fun p => p.1 != key) })
      else
        let elapsed := (now - e.createdAt) / nsPerSec % 2 ^ 32
        (some { e.msg with answer := e.msg.answer.map (adjustRR elapsed) }, c)

/-- The fold inside `evictOldest`: Go iterates the map with
`oldestKey == "" || entry.ExpiresAt.Before(oldestTime)` as the
replacement test, starting from the empty key and the zero time. -/
def findOldest : List (GoStr × Entry) → GoStr × Nat → GoStr × Nat
  | [], acc => acc
  | (k, e) :: rest, (ok, ot) =>
      findOldest rest (if ok = [] ∨ e.expiresAt < ot then (k, e.expiresAt) else (ok, ot))

/-- `Cache.evictOldest`: delete the found key, unless the fold ended on
the empty-string sentinel. -/
def Cache.evictOldest (items : List (GoStr × Entry)) : List (GoStr × Entry) :=
  let old := findOldest items ([], 0)
  if old.1 ≠ [] then items.filter (fun p => p.1 != old.1) else items

/-- The TTL a `Set` stores: the minimum answer TTL in seconds (the Go
loop seeds with `Answer[0]` and folds over every answer) or
`defaultTTL` when there are no answers, then clamped to
`[minTTL, maxTTL]`. -/
def derivedTTL (c : Cache) (m : Msg) : Nat :=
  let ttl :=
    match m.answer with
    | [] => c.defaultTTL
    | a :: rest =>
        nsPerSec * rest.foldl (fun acc rr => if rr.ttl < acc then rr.ttl else acc) a.ttl
  let ttl := if ttl < c.minTTL then c.minTTL else ttl
  if c.maxTTL < ttl then c.maxTTL else ttl

/-- `Cache.Set`: ignore a nil message or one without questions; derive
the clamped TTL; evict when at capacity; insert a copy, replacing any
binding of the same key. -/
def Cache.Set (c : Cache) (key : GoStr) (msg : Option Msg) (now : Nat) : Cache :=
  match msg with
  | none => c
  | some m =>
      if m.question.length = 0 then c
      else
        { c with items := (key, ⟨m, now + derivedTTL c m, now⟩) ::
            (if c.maxItems ≤ c.items.length then Cache.evictOldest c.items
             else c.items).filter (fun p => p.1 != key) }

/-- `Cache.Len`. -/
def Cache.Len (c : Cache) : Nat := c.items.length

/-! ### Remote result cache (`remote/internal/resolver/cache.go`) and
the remote resolver's key and MX emission (`resolver.go`). -/

/-- `resolver.DNSRecord` (the RPC record form, shared with the local
client's `client.DNSRecord`). -/
structure RDNSRecord where
  name : GoStr
  rtype : GoStr
  value : GoStr
  ttl : Nat
deriving DecidableEq

/-- `resolver.ResolveResult`. -/
structure ResolveResult where
  domain : GoStr
  records : List RDNSRecord
  cached : Bool
deriving DecidableEq

/-- `resolver.cacheEntry`. -/
structure RCacheEntry where
  result : ResolveResult
  expiresAt : Nat
deriving DecidableEq

/-- `resolver.Cache` (the remote tier's cache). -/
structure RemoteCache where
  items : List (GoStr × RCacheEntry)
  maxItems : Nat
  ttl : Nat
deriving DecidableEq

/-- Remote `Cache.Get`: a present but expired entry only reports a
miss — it is NOT deleted (the read holds only the read lock); a fresh
entry is returned as a copy of the stored result. -/
def RemoteCache.Get (c : RemoteCache) (key : GoStr) (now : Nat) :
    Option ResolveResult × RemoteCache :=
  match c.items.lookup key with
  | none => (none, c)
  | some e => if e.expiresAt < now then (none, c) else (some e.result, c)

/-- The fold inside the remote `evictOldest` (same shape as the local
one). -/
def rFindOldest : List (GoStr × RCacheEntry) → GoStr × Nat → GoStr × Nat
  | [], acc => acc
  | (k, e) :: rest, (ok, ot) =>
      rFindOldest rest (if ok = [] ∨ e.expiresAt < ot then (k, e.expiresAt) else (ok, ot))

/-- Remote `Cache.evictOldest`. -/
def RemoteCache.evictOldest (items : List (GoStr × RCacheEntry)) :
    List (GoStr × RCacheEntry) :=
  let old := rFindOldest items ([], 0)
  if old.1 ≠ [] then items.filter (fun p => p.1 != old.1) else items

/-- Remote `Cache.Set`: evict when at capacity, insert with the single
configured TTL. -/
def RemoteCache.Set (c : RemoteCache) (key : GoStr) (result : ResolveResult) (now : Nat) :
    RemoteCache :=
  let items := if c.maxItems ≤ c.items.length then RemoteCache.evictOldest c.items else c.items
  { c with items := (key, ⟨result, now + c.ttl⟩) :: items.filter (fun p => p.1 != key) }

/-- `strings.TrimSuffix(domain, ".")`: strips one trailing dot if
present. -/
def trimDotSuffix (s : GoStr) : GoStr :=
  if s.getLast? = some '.' then s.dropLast else s

/-- The remote resolver's cache key (`Resolver.Resolve`):
`fmt.Sprintf("%s:%s", strings.TrimSuffix(domain, "."), recordType)`.
No lowercasing is applied on either tier. -/
def remoteResolveKey (domain : GoStr) (recordType : GoStr) : GoStr :=
  trimDotSuffix domain ++ ':' :: recordType

/-- Every binding under `key` is gone after filtering `key` out. -/
theorem lookup_filter_ne {α : Type} (items : List (GoStr × α)) (key : GoStr) :
    (items.filter (fun p => p.1 != key)).lookup key = none := by
  induction items with
  | nil => rfl
  | cons p rest ih =>
      by_cases h : p.1 = key
      · simp [List.filter, h, ih]
      · have hne : (p.1 != key) = true := by simp [bne_iff_ne, h]
        simp only [List.filter, hne]
        rw [List.lookup]
        have : (key == p.1) = false := by
          simp [beq_iff_eq]
          exact fun he => h he.symm
        rw [this]
        exact ih

/-- C2.  On every local cache hit, each returned answer TTL equals
`max 1 (original_ttl - floor(now - created_at))` (in seconds), every
other field of the message is returned unchanged, and the cache state —
in particular the stored entry — is left exactly as it was. -/
theorem C2_ttl_decay_on_hit (c : Cache) (key : GoStr) (now : Nat) (e : Entry)
    (hl : c.items.lookup key = some e) (hfresh : ¬ e.expiresAt < now)
    (hsmall : (now - e.createdAt) / nsPerSec < 2 ^ 32) :
    Cache.Get c key now =
      (some (Msg.mk e.msg.question (e.msg.answer.map
          (fun rr => { rr with ttl := max 1 (rr.ttl - (now - e.createdAt) / nsPerSec) }))),
       c) := by
  rw [Cache.Get, hl]
  simp only [if_neg hfresh]
  rw [Nat.mod_eq_of_lt hsmall]
  have hfun : ∀ rr : DnsRR, adjustRR ((now - e.createdAt) / nsPerSec) rr =
      { rr with ttl := max 1 (rr.ttl - (now - e.createdAt) / nsPerSec) } := by
    intro rr
    rw [adjustRR]
    by_cases h : (now - e.createdAt) / nsPerSec < rr.ttl
    · rw [if_pos h]
      have : max 1 (rr.ttl - (now - e.createdAt) / nsPerSec) =
          rr.ttl - (now - e.createdAt) / nsPerSec := by omega
      rw [this]
    · rw [if_neg h]
      have : max 1 (rr.ttl - (now - e.createdAt) / nsPerSec) = 1 := by omega
      rw [this]
  have hfe : adjustRR ((now - e.createdAt) / nsPerSec) =
      fun rr => { rr with ttl := max 1 (rr.ttl - (now - e.createdAt) / nsPerSec) } :=
    funext hfun
  rw [hfe]

/-- Witness for C2: a concrete hit 10 s after insertion turns TTL 300
into 290 and TTL 3 into 1, leaving the cache unchanged. -/
theorem C2_ttl_decay_on_hit_witness :
    Cache.Get
        ⟨[(("t.com.:A").toList,
           ⟨⟨[⟨("t.com.").toList, 1⟩],
             [⟨("t.com.").toList, 1, 300, []⟩, ⟨("t.com.").toList, 1, 3, []⟩]⟩,
            300 * nsPerSec, 0⟩)], 100, 0, 0, 0⟩
        (("t.com.:A").toList) (10 * nsPerSec) =
      (some ⟨[⟨("t.com.").toList, 1⟩],
             [⟨("t.com.").toList, 1, 290, []⟩, ⟨("t.com.").toList, 1, 1, []⟩]⟩,
       ⟨[(("t.com.:A").toList,
          ⟨⟨[⟨("t.com.").toList, 1⟩],
            [⟨("t.com.").toList, 1, 300, []⟩, ⟨("t.com.").toList, 1, 3, []⟩]⟩,
           300 * nsPerSec, 0⟩)], 100, 0, 0, 0⟩) := by
  rw [C2_ttl_decay_on_hit _ _ _ _ (by rfl) (by decide) (by decide)]
  rfl

/-- C10.  `Set` is a no-op for a nil message, and for a message whose
question section is empty: the cache — map, length, every entry — is
returned exactly as it was, and no entry is created under `key`. -/
theorem C10_set_guard (c : Cache) (key : GoStr) (msg : Option Msg) (now : Nat)
    (h : ∀ m, msg = some m → m.question = []) :
    Cache.Set c key msg now = c := by
  match msg with
  | none => rfl
  | some m =>
      rw [Cache.Set]
      have hq : m.question = [] := h m rfl
      rw [hq]
      simp

/-- Witness for C10 on a nonempty cache, with both a nil message and an
empty-question message. -/
theorem C10_set_guard_witness :
    Cache.Set ⟨[(("a:A").toList, ⟨⟨[], []⟩, 5, 0⟩)], 10, 1, 1, 1⟩ (("b:A").toList)
        (some ⟨[], [⟨[], 1, 300, []⟩]⟩) 7 =
      ⟨[(("a:A").toList, ⟨⟨[], []⟩, 5, 0⟩)], 10, 1, 1, 1⟩ :=
  C10_set_guard _ _ _ _ (by intro m hm; cases hm; rfl)

/-- C3 counterexample: two questions whose owner names differ only in
letter case produce different cache keys — `Key` does not lowercase. -/
theorem C3_counterexample :
    Key ⟨("Google.com.").toList, 1⟩ ≠ Key ⟨("google.com.").toList, 1⟩ := by
  decide

/-- C3 (amended).  A local cache key is the owner name exactly as it
appears in the question (case preserved, no dot normalization) followed
by `:` and the type mnemonic; the remote key is the domain with one
trailing dot stripped, followed by `:` and the type string.  Keys are
therefore exact — injective, hence case-SENSITIVE — on the owner name
for any fixed type, on both tiers. -/
theorem C3_key_exactness :
    (∀ n1 n2 t, Key ⟨n1, t⟩ = Key ⟨n2, t⟩ ↔ n1 = n2) ∧
    (∀ d1 d2 t, remoteResolveKey d1 t = remoteResolveKey d2 t ↔
        trimDotSuffix d1 = trimDotSuffix d2) ∧
    (∀ d t, remoteResolveKey (d ++ ['.']) t = d ++ ':' :: t) := by
  refine ⟨?_, ?_, ?_⟩
  · intro n1 n2 t
    constructor
    · intro h
      exact List.append_left_injective (':' :: typeToString t) h
    · intro h
      rw [h]
  · intro d1 d2 t
    constructor
    · intro h
      exact List.append_left_injective (':' :: t) h
    · intro h
      rw [remoteResolveKey, remoteResolveKey, h]
  · intro d t
    rw [remoteResolveKey, trimDotSuffix]
    rw [List.getLast?_concat, if_pos rfl, List.dropLast_concat]

/-- C5 counterexample: on the remote tier, `Get` on a present-but-
expired entry reports a miss but does NOT delete the entry — the cache
comes back unchanged, the expired binding still present — refuting the
claim that both tiers delete expired entries during `get`. -/
theorem C5_counterexample :
    RemoteCache.Get ⟨[(("x:A").toList, ⟨⟨("x").toList, [], false⟩, 5⟩)], 10, 100⟩
        (("x:A").toList) 6 =
      (none, ⟨[(("x:A").toList, ⟨⟨("x").toList, [], false⟩, 5⟩)], 10, 100⟩) ∧
    (⟨[(("x:A").toList, ⟨⟨("x").toList, [], false⟩, 5⟩)], 10, 100⟩ :
        RemoteCache).items.lookup (("x:A").toList) =
      some ⟨⟨("x").toList, [], false⟩, 5⟩ := by
  constructor
  · rfl
  · rfl

/-- C5 (amended).  Both tiers report a miss on a present-but-expired
entry and return a copy of the stored payload on a fresh hit, but only
the LOCAL cache deletes the expired entry during the read; the remote
cache returns its state unchanged, the expired entry left in place for
the periodic sweep. -/
theorem C5_expired_read_behavior :
    (∀ (c : Cache) key now e, c.items.lookup key = some e → e.expiresAt < now →
      Cache.Get c key now = (none, { c with items := c.items.filter (fun p => p.1 != key) }) ∧
        ((Cache.Get c key now).2.items.lookup key = none)) ∧
    (∀ (rc : RemoteCache) key now e, rc.items.lookup key = some e → e.expiresAt < now →
      RemoteCache.Get rc key now = (none, rc)) ∧
    (∀ (rc : RemoteCache) key now e, rc.items.lookup key = some e → ¬ e.expiresAt < now →
      RemoteCache.Get rc key now = (some e.result, rc)) := by
  refine ⟨?_, ?_, ?_⟩
  · intro c key now e hl hexp
    have hget : Cache.Get c key now =
        (none, { c with items := c.items.filter (fun p => p.1 != key) }) := by
      rw [Cache.Get, hl]
      simp [if_pos hexp]
    refine ⟨hget, ?_⟩
    rw [hget]
    exact lookup_filter_ne c.items key
  · intro rc key now e hl hexp
    rw [RemoteCache.Get, hl]
    simp [if_pos hexp]
  · intro rc key now e hl hexp
    rw [RemoteCache.Get, hl]
    simp [if_neg hexp]

/-- Witness for C5's amended statement at concrete caches. -/
theorem C5_expired_read_behavior_witness :
    Cache.Get ⟨[(("y:A").toList, ⟨⟨[], []⟩, 5, 0⟩)], 10, 1, 1, 1⟩ (("y:A").toList) 6 =
      (none, ⟨[], 10, 1, 1, 1⟩) ∧
    RemoteCache.Get ⟨[(("y:A").toList, ⟨⟨[], [], false⟩, 5⟩)], 10, 7⟩ (("y:A").toList) 4 =
      (some ⟨[], [], false⟩, ⟨[(("y:A").toList, ⟨⟨[], [], false⟩, 5⟩)], 10, 7⟩) := by
  constructor
  · exact ((C5_expired_read_behavior.1 _ _ _ _ (by rfl) (by decide)).1).trans (by rfl)
  · exact (C5_expired_read_behavior.2.2 _ _ _ _ (by rfl) (by decide)).trans (by rfl)


/-- Removing a present element that fails the filter shortens the list. -/
theorem length_filter_lt_of_mem {α : Type} (l : List α) (p : α → Bool) (x : α)
    (hx : x ∈ l) (hpx : p x = false) : (l.filter p).length < l.length := by
  induction l with
  | nil => cases hx
  | cons a rest ih =>
      rw [List.filter_cons]
      rcases List.mem_cons.mp hx with rfl | hx'
      · rw [hpx]
        simp only [Bool.false_eq_true, if_false, List.length_cons]
        exact Nat.lt_succ_of_le (List.length_filter_le _ _)
      · by_cases hpa : p a = true
        · rw [hpa]
          simp only [if_true, List.length_cons]
          exact Nat.succ_lt_succ (ih hx')
        · rw [Bool.eq_false_iff.mpr hpa]
          simp only [Bool.false_eq_true, if_false, List.length_cons]
          exact Nat.lt_succ_of_lt (ih hx')

/-- Specification of the `evictOldest` fold, for a non-sentinel
accumulator: the result is the accumulator or comes from the list, it
never exceeds the accumulator's time, it bounds every listed entry's
expiry, and its key is nonempty. -/
theorem findOldest_spec (items : List (GoStr × Entry)) (ok : GoStr) (ot : Nat)
    (hok : ok ≠ []) (hkeys : ∀ p ∈ items, p.1 ≠ []) :
    ((findOldest items (ok, ot) = (ok, ot)) ∨
      (∃ p ∈ items, (findOldest items (ok, ot)).1 = p.1 ∧
        (findOldest items (ok, ot)).2 = p.2.expiresAt)) ∧
    (findOldest items (ok, ot)).2 ≤ ot ∧
    (∀ p ∈ items, (findOldest items (ok, ot)).2 ≤ p.2.expiresAt) ∧
    (findOldest items (ok, ot)).1 ≠ [] := by
  induction items generalizing ok ot with
  | nil =>
      refine ⟨Or.inl rfl, Nat.le_refl _, ?_, hok⟩
      intro p hp
      cases hp
  | cons hd rest ih =>
      obtain ⟨k, e⟩ := hd
      have hkne : k ≠ [] := hkeys (k, e) (by simp)
      have hrest : ∀ q ∈ rest, q.1 ≠ [] := fun q hq => hkeys q (by simp [hq])
      rw [findOldest]
      by_cases h : e.expiresAt < ot
      · rw [if_pos (Or.inr h)]
        obtain ⟨hmem, hle, hall, hne⟩ := ih k e.expiresAt hkne hrest
        refine ⟨?_, by omega, ?_, hne⟩
        · rcases hmem with heq | ⟨q, hq, h1, h2⟩
          · exact Or.inr ⟨(k, e), by simp, by rw [heq], by rw [heq]⟩
          · exact Or.inr ⟨q, by simp [hq], h1, h2⟩
        · intro q hq
          rcases List.mem_cons.mp hq with rfl | hq'
          · dsimp only
            omega
          · exact hall q hq'
      · have hcond : ¬ (ok = [] ∨ e.expiresAt < ot) := by
          rintro (h1 | h2)
          · exact hok h1
          · exact h h2
        rw [if_neg hcond]
        obtain ⟨hmem, hle, hall, hne⟩ := ih ok ot hok hrest
        refine ⟨?_, hle, ?_, hne⟩
        · rcases hmem with heq | ⟨q, hq, h1, h2⟩
          · exact Or.inl heq
          · exact Or.inr ⟨q, by simp [hq], h1, h2⟩
        · intro q hq
          rcases List.mem_cons.mp hq with rfl | hq'
          · dsimp only
            omega
          · exact hall q hq'

/-- On a nonempty map with nonempty keys, `evictOldest` removes exactly
the bindings of a key whose entry has the minimal `expiresAt`. -/
theorem evictOldest_spec (items : List (GoStr × Entry)) (hne : items ≠ [])
    (hkeys : ∀ p ∈ items, p.1 ≠ []) :
    ∃ p ∈ items, (findOldest items ([], 0)).1 = p.1 ∧
      (∀ q ∈ items, p.2.expiresAt ≤ q.2.expiresAt) ∧
      Cache.evictOldest items = items.filter (fun q => q.1 != p.1) := by
  cases items with
  | nil => exact absurd rfl hne
  | cons hd rest =>
      obtain ⟨k, e⟩ := hd
      have hkne : k ≠ [] := hkeys (k, e) (by simp)
      have hrest : ∀ q ∈ rest, q.1 ≠ [] := fun q hq => hkeys q (by simp [hq])
      have hfo : findOldest ((k, e) :: rest) ([], 0) = findOldest rest (k, e.expiresAt) := by
        rw [findOldest, if_pos (Or.inl rfl)]
      obtain ⟨hmem, hle, hall, hnz⟩ := findOldest_spec rest k e.expiresAt hkne hrest
      have hchoice : ∃ p ∈ (k, e) :: rest,
          (findOldest ((k, e) :: rest) ([], 0)).1 = p.1 ∧
          (findOldest ((k, e) :: rest) ([], 0)).2 = p.2.expiresAt := by
        rw [hfo]
        rcases hmem with heq | ⟨q, hq, h1, h2⟩
        · exact ⟨(k, e), by simp, by rw [heq], by rw [heq]⟩
        · exact ⟨q, by simp [hq], h1, h2⟩
      obtain ⟨p, hp, hp1, hp2⟩ := hchoice
      refine ⟨p, hp, hp1, ?_, ?_⟩
      · intro q hq
        have hq2 : (findOldest ((k, e) :: rest) ([], 0)).2 ≤ q.2.expiresAt := by
          rw [hfo]
          rcases List.mem_cons.mp hq with rfl | hq'
          · dsimp only
            omega
          · exact hall q hq'
        omega
      · rw [Cache.evictOldest]
        have hp1ne : (findOldest ((k, e) :: rest) ([], 0)).1 ≠ [] := by
          rw [hfo]
          exact hnz
        simp only [if_pos hp1ne]
        rw [hp1]

/-- `evictOldest` only keeps elements of the original map. -/
theorem evictOldest_subset (items : List (GoStr × Entry)) (q : GoStr × Entry)
    (hq : q ∈ Cache.evictOldest items) : q ∈ items := by
  rw [Cache.evictOldest] at hq
  by_cases h : (findOldest items ([], 0)).1 ≠ []
  · rw [if_pos h] at hq
    exact (List.mem_filter.mp hq).1
  · rw [if_neg h] at hq
    exact hq

/-- `Set` never changes the configured capacity. -/
theorem Set_maxItems (c : Cache) (key : GoStr) (msg : Option Msg) (now : Nat) :
    (Cache.Set c key msg now).maxItems = c.maxItems := by
  cases msg with
  | none => rfl
  | some m =>
      by_cases h : m.question.length = 0
      · simp [Cache.Set, h]
      · simp [Cache.Set, h]

/-- `Set` with a nonempty key keeps all stored keys nonempty. -/
theorem Set_keys (c : Cache) (key : GoStr) (msg : Option Msg) (now : Nat)
    (hk : key ≠ []) (hkeys : ∀ p ∈ c.items, p.1 ≠ []) :
    ∀ p ∈ (Cache.Set c key msg now).items, p.1 ≠ [] := by
  cases msg with
  | none => exact hkeys
  | some m =>
      by_cases h : m.question.length = 0
      · have hskip : Cache.Set c key (some m) now = c := by simp [Cache.Set, h]
        rw [hskip]
        exact hkeys
      · intro p hp
        simp only [Cache.Set] at hp
        rw [if_neg h] at hp
        simp only [List.mem_cons] at hp
        rcases hp with rfl | hp'
        · exact hk
        · have hbase := (List.mem_filter.mp hp').1
          by_cases hcap : c.maxItems ≤ c.items.length
          · rw [if_pos hcap] at hbase
            exact hkeys p (evictOldest_subset _ _ hbase)
          · rw [if_neg hcap] at hbase
            exact hkeys p hbase

/-- After `Set` on a within-capacity cache (capacity at least 1, keys
nonempty) the cache is still within capacity. -/
theorem Set_length (c : Cache) (key : GoStr) (msg : Option Msg) (now : Nat)
    (hmax : 1 ≤ c.maxItems) (hkeys : ∀ p ∈ c.items, p.1 ≠ [])
    (hlen : c.items.length ≤ c.maxItems) :
    (Cache.Set c key msg now).items.length ≤ c.maxItems := by
  cases msg with
  | none => exact hlen
  | some m =>
      by_cases h : m.question.length = 0
      · simpa [Cache.Set, h] using hlen
      · simp only [Cache.Set]
        rw [if_neg h]
        simp only [List.length_cons]
        by_cases hcap : c.maxItems ≤ c.items.length
        · rw [if_pos hcap]
          have hne : c.items ≠ [] := by
            intro hnil
            rw [hnil] at hcap
            simp only [List.length_nil] at hcap
            omega
          obtain ⟨p, hp, _, _, hev⟩ := evictOldest_spec c.items hne hkeys
          have hlt : (Cache.evictOldest c.items).length < c.items.length := by
            rw [hev]
            exact length_filter_lt_of_mem _ _ p hp (by simp)
          have hf : ((Cache.evictOldest c.items).filter (fun p => p.1 != key)).length ≤
              (Cache.evictOldest c.items).length := List.length_filter_le _ _
          omega
        · rw [if_neg hcap]
          have hf : (c.items.filter (fun p => p.1 != key)).length ≤ c.items.length :=
            List.length_filter_le _ _
          omega

/-- Applying a sequence of `Set` operations (`(key, msg, now)` each). -/
def applyOps (c : Cache) : List (GoStr × Option Msg × Nat) → Cache
  | [] => c
  | op :: rest => applyOps (Cache.Set c op.1 op.2.1 op.2.2) rest

/-- C7 counterexample: with `max_items = 0`, a single `Set` on the
empty cache leaves 1 > 0 entries — `len() ≤ max_items` fails, so the
claim does not hold for EVERY capacity bound. -/
theorem C7_counterexample :
    (Cache.Set ⟨[], 0, nsPerSec, nsPerSec, nsPerSec⟩ (("a:A").toList)
        (some ⟨[⟨[], 1⟩], []⟩) 0).Len = 1 ∧ ¬ (1 ≤ 0) := by
  constructor
  · rfl
  · omega

/-- C7 (amended).  For every capacity `max_items ≥ 1` and every finite
sequence of `Set` operations with nonempty keys starting from the
empty cache, `len() ≤ max_items` holds afterwards; and on a nonempty
map with nonempty keys, the entry evicted at insert time is one with
the earliest `expires_at`.  (With `max_items = 0`, or with the empty
string as a key, the Go sentinel in `evictOldest` can fail to evict
and the bound can be exceeded.) -/
theorem C7_capacity :
    (∀ (ops : List (GoStr × Option Msg × Nat)) (maxI dttl mint maxt : Nat),
      1 ≤ maxI → (∀ op ∈ ops, op.1 ≠ []) →
      (applyOps ⟨[], maxI, dttl, mint, maxt⟩ ops).Len ≤ maxI) ∧
    (∀ (items : List (GoStr × Entry)), items ≠ [] → (∀ p ∈ items, p.1 ≠ []) →
      ∃ p ∈ items, (∀ q ∈ items, p.2.expiresAt ≤ q.2.expiresAt) ∧
        Cache.evictOldest items = items.filter (fun q => q.1 != p.1)) := by
  constructor
  · intro ops maxI dttl mint maxt hmax hops
    suffices h : ∀ (ops : List (GoStr × Option Msg × Nat)) (c : Cache),
        c.maxItems = maxI → (∀ op ∈ ops, op.1 ≠ []) → (∀ p ∈ c.items, p.1 ≠ []) →
        c.items.length ≤ maxI → (applyOps c ops).Len ≤ maxI by
      refine h ops _ rfl hops ?_ (by simp)
      intro p hp
      cases hp
    intro ops
    induction ops with
    | nil =>
        intro c hcm _ _ hlen
        exact hlen
    | cons op rest ih =>
        intro c hcm hops hkeys hlen
        rw [applyOps]
        refine ih _ ?_ (fun o ho => hops o (by simp [ho])) ?_ ?_
        · rw [Set_maxItems, hcm]
        · exact Set_keys c _ _ _ (hops op (by simp)) hkeys
        · rw [← hcm] at hlen hmax ⊢
          exact Set_length c op.1 op.2.1 op.2.2 hmax hkeys hlen
  · intro items hne hkeys
    obtain ⟨p, hp, _, hmin, hev⟩ := evictOldest_spec items hne hkeys
    exact ⟨p, hp, hmin, hev⟩

/-- Witness for C7's amended statement: three sets into a 2-slot cache
stay at length 2, and on a concrete 2-entry map the evicted entry is
the earliest-expiring one. -/
theorem C7_capacity_witness :
    (applyOps ⟨[], 2, nsPerSec, nsPerSec, nsPerSec⟩
        [(("a:A").toList, some ⟨[⟨[], 1⟩], []⟩, 0),
         (("b:A").toList, some ⟨[⟨[], 1⟩], []⟩, 0),
         (("c:A").toList, some ⟨[⟨[], 1⟩], []⟩, 0)]).Len ≤ 2 ∧
    ∃ p ∈ [(("a:A").toList, (⟨⟨[], []⟩, 7, 0⟩ : Entry)),
           (("b:A").toList, (⟨⟨[], []⟩, 3, 0⟩ : Entry))],
      (∀ q ∈ [(("a:A").toList, (⟨⟨[], []⟩, 7, 0⟩ : Entry)),
              (("b:A").toList, (⟨⟨[], []⟩, 3, 0⟩ : Entry))],
        p.2.expiresAt ≤ q.2.expiresAt) ∧
      Cache.evictOldest
          [(("a:A").toList, (⟨⟨[], []⟩, 7, 0⟩ : Entry)),
           (("b:A").toList, (⟨⟨[], []⟩, 3, 0⟩ : Entry))] =
        [(("a:A").toList, (⟨⟨[], []⟩, 7, 0⟩ : Entry)),
         (("b:A").toList, (⟨⟨[], []⟩, 3, 0⟩ : Entry))].filter (fun q => q.1 != p.1) :=
  ⟨C7_capacity.1 _ 2 nsPerSec nsPerSec nsPerSec (by omega) (by decide),
   C7_capacity.2 _ (by decide) (by decide)⟩

/-! ### Endpoint selection and health probes (`internal/client/client.go`)

The pool is its list of `healthy` flags (I3: order is fixed; only the
flags change).  The atomic `currentIndex` is a `uint32`; Go's
`Add(1)-1` yields the pre-increment value, reduced mod `2^32` by the
register width, and `int(...) % len` then picks the slot.  The model
tracks the total increment count and reduces mod `2^32` at use, which
yields the same index sequence. -/

/-- The loop body of `selectRoundRobin`: up to `fuel` probes, each one
incrementing the counter, returning the first healthy index. -/
def selectRoundRobinScan (healthy : List Bool) (counter : Nat) : Nat → Option Nat × Nat
  | 0 => (none, counter)
  | fuel + 1 =>
      let idx := counter % 2 ^ 32 % healthy.length
      if healthy.getD idx false then (some idx, counter + 1)
      else selectRoundRobinScan healthy (counter + 1) fuel

/-- `Client.selectRoundRobin`: scan `len(endpoints)` positions starting
at the counter; if none is healthy, fall back to endpoint 0 when the
pool is nonempty, and to no endpoint at all otherwise. -/
def selectRoundRobin (healthy : List Bool) (counter : Nat) : Option Nat × Nat :=
  match selectRoundRobinScan healthy counter healthy.length with
  | (some idx, c') => (some idx, c')
  | (none, c') => if 0 < healthy.length then (some 0, c') else (none, c')

/-- `Client.selectFailover`: first healthy endpoint in pool order, else
endpoint 0, else none. -/
def selectFailover (healthy : List Bool) : Option Nat :=
  match healthy.findIdx? (fun b => b) with
  | some i => some i
  | none => if 0 < healthy.length then some 0 else none

/-- `Client.selectEndpoint`: dispatch on the configured policy;
`round_robin` and any unrecognised policy use round robin. -/
def selectEndpoint (policy : GoStr) (healthy : List Bool) (counter : Nat) :
    Option Nat × Nat :=
  if policy = ("failover").toList then (selectFailover healthy, counter)
  else selectRoundRobin healthy counter

/-- `Client.checkEndpoint`'s URL derivation:
`ep.URL[:len(ep.URL)-len("/api/v1/resolve")] + "/health"` — an
unconditional slice of the last 15 bytes; a URL shorter than 15 bytes
makes the slice bound negative and the program panic (`none`). -/
def healthURL (url : GoStr) : Option GoStr :=
  if url.length < ("/api/v1/resolve").length then none
  else some (url.take (url.length - ("/api/v1/resolve").length) ++ ("/health").toList)

/-- `Client.checkEndpoint`'s flag update: `healthy := (status == 200)`;
a transport error (`none`) stores `false`. -/
def checkHealthy (status : Option Nat) : Bool :=
  match status with
  | some s => s == 200
  | none => false

/-- The index sequence produced by consecutive `selectRoundRobin`
calls, threading the counter. -/
def rrRun (healthy : List Bool) (counter : Nat) : Nat → List (Option Nat)
  | 0 => []
  | calls + 1 =>
      let r := selectRoundRobin healthy counter
      r.1 :: rrRun healthy r.2 calls

/-- In an all-`false` pool every probe fails. -/
theorem getD_all_false (l : List Bool) (x : Nat) (h : ∀ b ∈ l, b = false) :
    l.getD x false = false := by
  induction l generalizing x with
  | nil => simp [List.getD]
  | cons a t ih =>
      cases x with
      | zero => simpa using h a (by simp)
      | succ x' => simpa using ih x' (fun b hb => h b (by simp [hb]))

/-- If the first `j` probes fail and probe `j` succeeds within the
fuel, the scan returns probe `j`'s index having incremented the counter
`j + 1` times. -/
theorem scan_first_healthy (j : Nat) :
    ∀ (fuel : Nat) (healthy : List Bool) (c : Nat), j < fuel →
    (∀ j' < j, healthy.getD ((c + j') % 2 ^ 32 % healthy.length) false = false) →
    healthy.getD ((c + j) % 2 ^ 32 % healthy.length) false = true →
    selectRoundRobinScan healthy c fuel =
      (some ((c + j) % 2 ^ 32 % healthy.length), c + j + 1) := by
  induction j with
  | zero =>
      intro fuel healthy c hj _ hsucc
      cases fuel with
      | zero => omega
      | succ f =>
          rw [selectRoundRobinScan]
          simp only [Nat.add_zero] at hsucc
          rw [hsucc]
          simp
  | succ j ih =>
      intro fuel healthy c hj hfails hsucc
      cases fuel with
      | zero => omega
      | succ f =>
          rw [selectRoundRobinScan]
          have h0 : healthy.getD (c % 2 ^ 32 % healthy.length) false = false := by
            have := hfails 0 (by omega)
            simpa using this
          rw [h0]
          simp only [Bool.false_eq_true, if_false]
          have hshift : ∀ j' < j,
              healthy.getD ((c + 1 + j') % 2 ^ 32 % healthy.length) false = false := by
            intro j' hj'
            have := hfails (j' + 1) (by omega)
            have harg : c + (j' + 1) = c + 1 + j' := by omega
            rwa [harg] at this
          have hsucc' : healthy.getD ((c + 1 + j) % 2 ^ 32 % healthy.length) false = true := by
            have harg : c + (j + 1) = c + 1 + j := by omega
            rwa [harg] at hsucc
          have := ih f healthy (c + 1) (by omega) hshift hsucc'
          rw [this]
          have h1 : c + 1 + j = c + (j + 1) := by omega
          rw [h1]

/-- If every probe within the fuel fails, the scan returns no index,
the counter incremented once per probe. -/
theorem scan_all_fail :
    ∀ (fuel : Nat) (healthy : List Bool) (c : Nat),
    (∀ j < fuel, healthy.getD ((c + j) % 2 ^ 32 % healthy.length) false = false) →
    selectRoundRobinScan healthy c fuel = (none, c + fuel) := by
  intro fuel
  induction fuel with
  | zero =>
      intro healthy c _
      rfl
  | succ f ih =>
      intro healthy c hfails
      rw [selectRoundRobinScan]
      have h0 : healthy.getD (c % 2 ^ 32 % healthy.length) false = false := by
        have := hfails 0 (by omega)
        simpa using this
      rw [h0]
      simp only [Bool.false_eq_true, if_false]
      have hshift : ∀ j < f,
          healthy.getD ((c + 1 + j) % 2 ^ 32 % healthy.length) false = false := by
        intro j hj
        have := hfails (j + 1) (by omega)
        have harg : c + (j + 1) = c + 1 + j := by omega
        rwa [harg] at this
      rw [ih healthy (c + 1) hshift]
      have h1 : c + 1 + f = c + (f + 1) := by omega
      rw [h1]

/-- Counting an image value equals counting preimages. -/
theorem count_map_eq_countP {α β : Type} [BEq β] (l : List α) (f : α → β) (b : β) :
    (l.map f).count b = l.countP (fun a => f a == b) := by
  induction l with
  | nil => rfl
  | cons a t ih =>
      rw [List.map_cons, List.count_cons, List.countP_cons, ih]

/-- The first rotation step: mapping `j ↦ (c + j) % N` over
`range N` rotates `range N` by `c % N`. -/
theorem map_add_mod_range (N c : Nat) (hN : 0 < N) :
    (List.range N).map (fun j => (c + j) % N) = (List.range N).rotate (c % N) := by
  apply List.ext_get
  · simp [List.length_rotate]
  · intro n h1 h2
    have hn : n < N := by simpa using h1
    rw [List.get_map, List.get_rotate]
    have hgr : ∀ (i : Nat) (hi : i < (List.range N).length),
        (List.range N).get ⟨i, hi⟩ = i := by
      intro i hi
      simp
    rw [hgr, hgr]
    have hr : (List.range N).length = N := by simp
    rw [hr]
    conv_lhs => rw [Nat.add_mod]
    rw [Nat.mod_eq_of_lt hn]
    rw [Nat.add_comm]

/-- Among `N` consecutive counter values exactly one hits residue `i`. -/
theorem countP_range_mod (N c i : Nat) (hN : 0 < N) (hi : i < N) :
    (List.range N).countP (fun j => (c + j) % N == i) = 1 := by
  have h1 : (List.range N).countP (fun j => (c + j) % N == i) =
      ((List.range N).map (fun j => (c + j) % N)).count i := by
    rw [count_map_eq_countP]
  rw [h1, map_add_mod_range N c hN]
  rw [(List.rotate_perm (List.range N) (c % N)).count_eq]
  exact List.count_eq_one_of_mem (List.nodup_range N) (List.mem_range.mpr hi)

/-- Among `N * k` consecutive counter values each residue `i < N` is
hit exactly `k` times. -/
theorem countP_range_mul (N k c i : Nat) (hN : 0 < N) (hi : i < N) :
    (List.range (N * k)).countP (fun t => (c + t) % N == i) = k := by
  induction k with
  | zero => simp
  | succ k ih =>
      have hsplit : N * (k + 1) = N * k + N := by ring
      rw [hsplit, List.range_add, List.countP_append, ih, List.countP_map]
      have hfun : ((fun t => (c + t) % N == i) ∘ (fun j => N * k + j)) =
          (fun j => (c + N * k + j) % N == i) := by
        funext j
        simp only [Function.comp]
        have harg : c + (N * k + j) = c + N * k + j := by omega
        rw [harg]
      rw [hfun, countP_range_mod N (c + N * k) i hN hi]

/-- With every endpoint healthy, one call returns slot `counter mod n`
and increments the counter exactly once. -/
theorem select_all_healthy (N c : Nat) (hN : 0 < N) :
    selectRoundRobin (List.replicate N true) c =
      (some (c % 2 ^ 32 % N), c + 1) := by
  have hlen : (List.replicate N true).length = N := by simp
  have hsucc : (List.replicate N true).getD
      ((c + 0) % 2 ^ 32 % (List.replicate N true).length) false = true := by
    rw [hlen]
    have hlt : (c + 0) % 2 ^ 32 % N < N := Nat.mod_lt _ hN
    rw [List.getD_eq_getElem?_getD, List.getElem?_replicate, if_pos hlt]
    rfl
  have hscan := scan_first_healthy 0 (List.replicate N true).length
      (List.replicate N true) c (by rw [hlen]; omega) (by omega) hsucc
  rw [selectRoundRobin, hscan, hlen]
  simp

/-- With every endpoint healthy, `M` consecutive calls return the
consecutive counter residues. -/
theorem rrRun_all_healthy (M : Nat) :
    ∀ (N c : Nat), 0 < N →
    rrRun (List.replicate N true) c M =
      (List.range M).map (fun t => some ((c + t) % 2 ^ 32 % N)) := by
  induction M with
  | zero =>
      intro N c _
      rfl
  | succ M ih =>
      intro N c hN
      rw [rrRun]
      simp only [select_all_healthy N c hN]
      rw [ih N (c + 1) hN]
      rw [List.range_succ_eq_map, List.map_cons, List.map_map]
      congr 1
      apply List.map_congr_left
      intro t _
      simp only [Function.comp]
      have harg : c + 1 + t = c + Nat.succ t := by omega
      rw [harg]

/-- C4 counterexample: with pool `[unhealthy, healthy]` and counter 0,
one `selectRoundRobin` call returns endpoint 1 but increments the
counter twice (0 to 2), refuting "each selection call increments the
atomic counter exactly once". -/
theorem C4_counterexample :
    selectRoundRobin [false, true] 0 = (some 1, 2) ∧
    (selectRoundRobin [false, true] 0).2 ≠ 0 + 1 := by
  constructor
  · rfl
  · decide

/-- C4 (amended).  The counter is incremented once per PROBED position
(hence exactly once per call when the first probed endpoint is
healthy, in particular whenever all are healthy).  Starting from
`counter mod n` the scan returns the first healthy endpoint; if none is
healthy it returns endpoint 0; and over `N*k` consecutive calls with
all `N` endpoints healthy each endpoint is selected exactly `k` times. -/
theorem C4_round_robin :
    (∀ (healthy : List Bool) (c j : Nat), j < healthy.length →
      c + healthy.length ≤ 2 ^ 32 →
      (∀ j' < j, healthy.getD ((c + j') % healthy.length) false = false) →
      healthy.getD ((c + j) % healthy.length) false = true →
      selectRoundRobin healthy c = (some ((c + j) % healthy.length), c + j + 1)) ∧
    (∀ (healthy : List Bool) (c : Nat), healthy ≠ [] → (∀ b ∈ healthy, b = false) →
      selectRoundRobin healthy c = (some 0, c + healthy.length)) ∧
    (∀ (N k c i : Nat), 0 < N → i < N → c + N * k ≤ 2 ^ 32 →
      (rrRun (List.replicate N true) c (N * k)).count (some i) = k) := by
  refine ⟨?_, ?_, ?_⟩
  · intro healthy c j hj hbound hfails hsucc
    have hmod : ∀ j', j' ≤ j → (c + j') % 2 ^ 32 = c + j' := by
      intro j' hj'
      exact Nat.mod_eq_of_lt (by omega)
    have hscan := scan_first_healthy j healthy.length healthy c hj
      (by
        intro j' hj'
        rw [hmod j' (Nat.le_of_lt hj')]
        exact hfails j' hj')
      (by
        rw [hmod j (Nat.le_refl j)]
        exact hsucc)
    rw [selectRoundRobin, hscan]
    rw [hmod j (Nat.le_refl j)]
  · intro healthy c hne hall
    have hfails : ∀ j < healthy.length,
        healthy.getD ((c + j) % 2 ^ 32 % healthy.length) false = false := by
      intro j _
      exact getD_all_false _ _ hall
    rw [selectRoundRobin, scan_all_fail healthy.length healthy c hfails]
    simp only [if_pos (List.length_pos.mpr hne)]
  · intro N k c i hN hi hbound
    rw [rrRun_all_healthy (N * k) N c hN]
    have hmap : (List.range (N * k)).map (fun t => some ((c + t) % 2 ^ 32 % N)) =
        (List.range (N * k)).map (fun t => some ((c + t) % N)) := by
      apply List.map_congr_left
      intro t ht
      have hlt := List.mem_range.mp ht
      have harg : (c + t) % 2 ^ 32 = c + t := Nat.mod_eq_of_lt (by omega)
      rw [harg]
    rw [hmap, count_map_eq_countP]
    exact countP_range_mul N k c i hN hi

/-- Witness for C4's amended statement at concrete pools. -/
theorem C4_round_robin_witness :
    selectRoundRobin [false, true] 4 = (some ((4 + 1) % 2), 4 + 1 + 1) ∧
    selectRoundRobin [false, false] 3 = (some 0, 3 + 2) ∧
    (rrRun (List.replicate 2 true) 1 (2 * 3)).count (some 0) = 3 :=
  ⟨C4_round_robin.1 [false, true] 4 1 (by decide) (by decide)
      (by decide) (by decide),
   C4_round_robin.2.1 [false, false] 3 (by decide) (by decide),
   C4_round_robin.2.2 2 3 1 0 (by decide) (by decide) (by decide)⟩

/-- C9.  Endpoint selection — under `failover`, `round_robin`, and any
unrecognised policy — returns no endpoint exactly when the pool is
empty: with a nonempty pool some endpoint is always selected, even when
every endpoint is unhealthy, so `Resolve`'s "no healthy endpoints
available" branch is reachable only with an empty pool. -/
theorem C9_selection_total (policy : GoStr) (healthy : List Bool) (c : Nat) :
    (selectEndpoint policy healthy c).1 = none ↔ healthy = [] := by
  rw [selectEndpoint]
  by_cases hp : policy = ("failover").toList
  · rw [if_pos hp]
    cases hf : healthy.findIdx? (fun b => b) with
    | some i =>
        simp only [selectFailover, hf]
        constructor
        · intro h
          cases h
        · intro h
          rw [h] at hf
          cases hf
    | none =>
        simp only [selectFailover, hf]
        by_cases hlen : 0 < healthy.length
        · rw [if_pos hlen]
          constructor
          · intro h
            cases h
          · intro h
            rw [h] at hlen
            simp at hlen
        · rw [if_neg hlen]
          constructor
          · intro _
            cases healthy with
            | nil => rfl
            | cons a t => simp at hlen
          · intro _
            rfl
  · rw [if_neg hp, selectRoundRobin]
    cases hsc : selectRoundRobinScan healthy c healthy.length with
    | mk o c' =>
        cases o with
        | some idx =>
            simp only
            constructor
            · intro h
              cases h
            · intro h
              rw [h] at hsc
              cases hsc
        | none =>
            simp only
            by_cases hlen : 0 < healthy.length
            · rw [if_pos hlen]
              constructor
              · intro h
                cases h
              · intro h
                rw [h] at hlen
                simp at hlen
            · rw [if_neg hlen]
              constructor
              · intro _
                cases healthy with
                | nil => rfl
                | cons a t => simp at hlen
              · intro _
                rfl

/-- C6 counterexample: for a 15-byte URL that does not end in
`/api/v1/resolve`, the probe URL is `/health`, not the URL as given;
and for a URL shorter than 15 bytes the slice bound is negative and the
probe panics — the derivation is not total. -/
theorem C6_counterexample :
    healthURL (List.replicate 15 'a') = some (("/health").toList) ∧
    (("/api/v1/resolve").toList).isSuffixOf (List.replicate 15 'a') = false ∧
    some (("/health").toList) ≠ some (List.replicate 15 'a') ∧
    healthURL (("x").toList) = none := by
  refine ⟨rfl, by decide, by decide, rfl⟩

/-- C6 (amended).  The probe URL is the endpoint URL with its last 15
bytes unconditionally removed and `/health` appended — equal to
stripping the `/api/v1/resolve` suffix whenever that suffix is present
(and a panic on URLs shorter than 15 bytes); after the probe, healthy
holds exactly when the HTTP status was 200, a transport error giving
`healthy = false`. -/
theorem C6_health_url :
    (∀ base : GoStr, healthURL (base ++ ("/api/v1/resolve").toList) =
        some (base ++ ("/health").toList)) ∧
    (∀ st : Option Nat, checkHealthy st = true ↔ st = some 200) := by
  constructor
  · intro base
    rw [healthURL]
    have hlen : (base ++ ("/api/v1/resolve").toList).length = base.length + 15 := by
      simp
    have h15 : ("/api/v1/resolve").length = 15 := rfl
    rw [hlen, h15, if_neg (by omega)]
    have harith : base.length + 15 - 15 = base.length := by omega
    rw [harith]
    have htake : (base ++ ("/api/v1/resolve").toList).take base.length = base :=
      List.take_left base _
    rw [htake]
  · intro st
    cases st with
    | none => simp [checkHealthy]
    | some s => simp [checkHealthy]

/-! ### MX serialization (`resolver.go` and `server.go`) -/

/-- `dns.Fqdn`: append a trailing dot when absent. -/
def fqdn (s : GoStr) : GoStr :=
  if s.getLast? = some '.' then s else s ++ ['.']

/-- The remote MX record value: `fmt.Sprintf("%d %s", mx.Pref, mx.Host)`. -/
def mxValue (pref : Nat) (host : GoStr) : GoStr :=
  (Nat.repr pref).toList ++ ' ' :: host

/-- The record the remote resolver emits for one MX exchange
(`resolveWithUpstream`, MX case): name = queried domain, type `MX`,
value `"<pref> <host>"`, TTL 300. -/
def remoteMXRecord (domain : GoStr) (pref : Nat) (host : GoStr) : RDNSRecord :=
  ⟨domain, ("MX").toList, mxValue pref host, 300⟩

/-- A `dns.MX` resource record as the local builder assembles it. -/
structure MXRR where
  name : GoStr
  preference : Nat
  mx : GoStr
  ttl : Nat
deriving DecidableEq

/-- The MX branch of `Server.createRR`: TTL 0 defaults to 300, the
preference is hard-coded 10, and the exchange is `dns.Fqdn(rec.Value)`
— the WHOLE value string, with no host extraction. -/
def createRR_MX (rec : RDNSRecord) (name : GoStr) : MXRR :=
  ⟨name, 10, fqdn rec.value, if rec.ttl = 0 then 300 else rec.ttl⟩

/-- C8 counterexample: for upstream preference 20 and host
`mail.example.com.`, the remote emits value `"20 mail.example.com."`
(as the claim says), but the local builder's exchange is the whole
value `"20 mail.example.com."` — not the extracted host
`"mail.example.com."` — so the claim's exchange is wrong. -/
theorem C8_counterexample :
    (remoteMXRecord (("example.com").toList) 20 (("mail.example.com.").toList)).value =
      ("20 mail.example.com.").toList ∧
    createRR_MX (remoteMXRecord (("example.com").toList) 20 (("mail.example.com.").toList))
        (("example.com.").toList) =
      ⟨("example.com.").toList, 10, ("20 mail.example.com.").toList, 300⟩ ∧
    ("20 mail.example.com.").toList ≠ ("mail.example.com.").toList := by
  refine ⟨by decide, by decide, by decide⟩

/-- C8 (amended).  The remote emits `"<pref> <host>"`; the local
builder hard-codes preference 10 but performs NO host extraction: the
exchange is the entire value (already fully qualified when the host
is), so for preference 20 and host `mail.example.com.` the exchange is
`20 mail.example.com.`. -/
theorem C8_mx_asymmetry (domain name host : GoStr) (pref : Nat)
    (hdot : host.getLast? = some '.') :
    (remoteMXRecord domain pref host).value = mxValue pref host ∧
    createRR_MX (remoteMXRecord domain pref host) name =
      ⟨name, 10, mxValue pref host, 300⟩ := by
  refine ⟨rfl, ?_⟩
  rw [createRR_MX]
  have hval : (remoteMXRecord domain pref host).value = mxValue pref host := rfl
  rw [hval]
  have hhost_ne : host ≠ [] := by
    intro h
    rw [h] at hdot
    cases hdot
  have hlast : (mxValue pref host).getLast? = some '.' := by
    rw [mxValue]
    have hassoc : (Nat.repr pref).toList ++ ' ' :: host =
        ((Nat.repr pref).toList ++ [' ']) ++ host := by
      simp
    rw [hassoc, List.getLast?_append_of_ne_nil _ hhost_ne, hdot]
  rw [fqdn, if_pos hlast]
  rfl

/-- Witness for C8's amended statement at the scenario's inputs. -/
theorem C8_mx_asymmetry_witness :
    (remoteMXRecord (("example.com").toList) 20 (("mail.example.com.").toList)).value =
      mxValue 20 (("mail.example.com.").toList) ∧
    createRR_MX (remoteMXRecord (("example.com").toList) 20 (("mail.example.com.").toList))
        (("example.com.").toList) =
      ⟨("example.com.").toList, 10, mxValue 20 (("mail.example.com.").toList), 300⟩ :=
  C8_mx_asymmetry (("example.com").toList) (("example.com.").toList)
    (("mail.example.com.").toList) 20 (by decide)
